import Mathlib

/-!
Verification development for the `printer` trace-visualization scripts
(`trace_to_html.py` and `generate_trace_json.py`).

Conventions of the embedding:
* Python floats carrying timestamps are modelled as exact rationals (`ℚ`);
  the spec describes timestamps as real-valued.
* Python ints are modelled as `Int`/`Nat`, with explicit `% 2^32` / `% 2^64`
  where the code masks.
* The CSV/file-I/O boundary is out of scope (as the spec declares); functions
  are modelled from the already-parsed task records onward.  The run-level
  outcome (artifact written vs. diagnostic-and-return) is modelled by
  `RunOutcome`.
-/

namespace Printer

/-- Task record of `trace_to_html.py`
(`Task = namedtuple("Task", ["start", "end", "thread", "args", "color", "orig_line", "idx"])`).
The source field `end` is a Lean keyword and is rendered as `stop`. -/
structure Task where
  start : ℚ
  stop : ℚ
  thread : String
  args : String
  color : Option Int
  orig_line : List String
  idx : Nat
deriving DecidableEq, Repr

/-- Sort key order of `sorted(tasks, key=lambda t: (t.start, t.end))`:
lexicographic comparison on the pair `(start, end)`. -/
def keyLE (a b : Task) : Prop :=
  a.start < b.start ∨ (a.start = b.start ∧ a.stop ≤ b.stop)

instance : DecidableRel keyLE := fun a b => by
  unfold keyLE; infer_instance

instance : IsTotal Task keyLE where
  total a b := by
    unfold keyLE
    rcases lt_trichotomy a.start b.start with h | h | h
    · exact Or.inl (Or.inl h)
    · rcases le_total a.stop b.stop with h2 | h2
      · exact Or.inl (Or.inr ⟨h, h2⟩)
      · exact Or.inr (Or.inr ⟨h.symm, h2⟩)
    · exact Or.inr (Or.inl h)

instance : IsTrans Task keyLE where
  trans a b c hab hbc := by
    unfold keyLE at *
    rcases hab with h1 | ⟨h1, h1'⟩ <;> rcases hbc with h2 | ⟨h2, h2'⟩
    · exact Or.inl (h1.trans h2)
    · exact Or.inl (h2 ▸ h1)
    · exact Or.inl (h1 ▸ h2)
    · exact Or.inr ⟨h1.trans h2, h1'.trans h2'⟩

/-- The stable sort of a lane's tasks (`sorted(tasks, key=lambda t: (t.start, t.end))`;
Python's sort is stable, as is insertion sort). -/
def sortTasks (tasks : List Task) : List Task :=
  List.insertionSort keyLE tasks

/-- Scan of the row cursors (`for r_idx, last_end in enumerate(rows_end): if last_end <= t.start: ...`):
returns the updated cursor list and the index of the first row whose cursor is `≤ s`,
or `none` when no row qualifies.  `s` is the task's start, `e` its end. -/
def placeIn (rows_end : List ℚ) (s e : ℚ) : Option (List ℚ × Nat) :=
  match rows_end with
  | [] => none
  | last_end :: rest =>
    if last_end ≤ s then some (e :: rest, 0)
    else
      match placeIn rest s e with
      | some (rest', r) => some (last_end :: rest', r + 1)
      | none => none

/-- One iteration of the greedy loop of `assign_rows_per_thread`:
place the task in the first free row, else open a new row. -/
def assignStep (acc : List (Task × Nat) × List ℚ) (t : Task) : List (Task × Nat) × List ℚ :=
  match placeIn acc.2 t.start t.stop with
  | some (rows', r) => (acc.1 ++ [(t, r)], rows')
  | none => (acc.1 ++ [(t, acc.2.length)], acc.2 ++ [t.stop])

/-- `assign_rows_per_thread(tasks)` of `trace_to_html.py`: sort by `(start, end)`,
then greedily assign each task the first row whose cursor end is `<= start`,
opening a new row otherwise.  Returns the `(task, row)` list and the row count. -/
def assign_rows_per_thread (tasks : List Task) : List (Task × Nat) × Nat :=
  let folded := (sortTasks tasks).foldl assignStep ([], [])
  (folded.1, folded.2.length)

/-- Modelled from the spec: "place the task in the first row whose cursor end
time is `<= task.start`" — the index of the first qualifying row cursor,
used to state that `placeIn` scans rows in row-index order. -/
def firstFitIndex (rows_end : List ℚ) (s : ℚ) : Option Nat :=
  match rows_end with
  | [] => none
  | last_end :: rest =>
    if last_end ≤ s then some 0
    else (firstFitIndex rest s).map (· + 1)

/-- Tasks of the concrete scenario of the spec
(`(0,10,"T1","a"), (5,15,"T1","b"), (20,30,"T1","c")`). -/
def demoTasks : List Task :=
  [⟨0, 10, "T1", "a", none, [], 0⟩,
   ⟨5, 15, "T1", "b", none, [], 1⟩,
   ⟨20, 30, "T1", "c", none, [], 2⟩]

/-- `color_from_int(x)` of `trace_to_html.py`:
`h = (x * 2654435761) & 0xFFFFFFFF`, then hue `h % 360`,
saturation `60 + (h >> 8) % 20`, lightness `45 + (h >> 16) % 10`,
rendered as an `hsl(...)` string.  Python's `&` on an arbitrary int equals
`% 2^32` (nonnegative), modelled by `Int.emod` with positive modulus. -/
def color_from_int (x : Int) : String :=
  let h : Nat := ((x * 2654435761) % (2 ^ 32 : Int)).toNat
  let hue := h % 360
  let sat := 60 + (h >>> 8) % 20
  let light := 45 + (h >>> 16) % 10
  s!"hsl({hue} {sat}% {light}%)"

/-- The FNV-1a style 64-bit hash loop of `color_from_string`:
`h = 1469598103934665603; for ch in s: h ^= ord(ch); h *= 1099511628211; h &= 0xFFFFFFFFFFFFFFFF`. -/
def fnv64 (s : String) : Nat :=
  s.data.foldl (fun h ch => ((h ^^^ ch.toNat) * 1099511628211) % 2 ^ 64) 1469598103934665603

/-- `color_from_string(s)` of `trace_to_html.py`: hash the string and feed the
low 32 bits (`h & 0xFFFFFFFF`) to `color_from_int`. -/
def color_from_string (s : String) : String :=
  color_from_int (Int.ofNat (fnv64 s % 2 ^ 32))

/-- Color resolution of a task in `generate_html`
(`if t.color is not None: fill = color_from_int(int(t.color) & 0xFFFFFFFF)
else: fill = color_from_string(t.args or str(t.idx))`). -/
def resolveFill (t : Task) : String :=
  match t.color with
  | some c => color_from_int (c % (2 ^ 32 : Int))
  | none => color_from_string (if t.args = "" then toString t.idx else t.args)

/-- Layout parameter `width_px = 1400` of `generate_html`. -/
def width_px : ℚ := 1400

/-- Layout parameter `left_margin = 200` of `generate_html`. -/
def left_margin : ℚ := 200

/-- Layout parameter `row_height = 20` of `generate_html`. -/
def row_height : ℚ := 20

/-- Layout parameter `row_padding = 6` of `generate_html`. -/
def row_padding : ℚ := 6

/-- Layout parameter `track_spacing = 12` of `generate_html`. -/
def track_spacing : ℚ := 12

/-- Layout parameter `header_h = 40` of `generate_html`. -/
def header_h : ℚ := 40

/-- `time_to_x(us)` of `generate_html`:
`rel = (us - global_start) / (global_end - global_start);
return left_margin + rel * (width_px - left_margin - 40)`. -/
def time_to_x (global_start global_end us : ℚ) : ℚ :=
  let rel := (us - global_start) / (global_end - global_start)
  left_margin + rel * (width_px - left_margin - 40)

/-- Python `min` over a nonempty list (the `[]` case is unreachable at every
call site, which guards against empty input first). -/
def listMin : List ℚ → ℚ
  | [] => 0
  | a :: l => l.foldl min a

/-- Python `max` over a nonempty list (the `[]` case is unreachable at every
call site, which guards against empty input first). -/
def listMax : List ℚ → ℚ
  | [] => 0
  | a :: l => l.foldl max a

/-- Global time range of `generate_html`:
`global_start = min(t.start ...); global_end = max(t.end ...);
if global_end == global_start: global_end = global_start + 1`. -/
def adjustedRange (tasks : List Task) : ℚ × ℚ :=
  let gs := listMin (tasks.map Task.start)
  let ge := listMax (tasks.map Task.stop)
  (gs, if ge = gs then gs + 1 else ge)

/-- Grouping of tasks by thread (`threads = defaultdict(list); for t in tasks:
threads[t.thread].append(t)`): association list in first-appearance order,
each thread keeping its tasks in input order. -/
def addToGroup (groups : List (String × List Task)) (t : Task) : List (String × List Task) :=
  match groups with
  | [] => [(t.thread, [t])]
  | (k, l) :: rest =>
    if k = t.thread then (k, l ++ [t]) :: rest
    else (k, l) :: addToGroup rest t

/-- Grouping of the task list by `t.thread`, preserving Python dict insertion order. -/
def groupByThread (tasks : List Task) : List (String × List Task) :=
  tasks.foldl addToGroup []

/-- Lane ordering of `thread_order = sorted(thread_layout.keys())`: lanes
sorted lexicographically by thread identifier.  Python compares strings by
code points; this is the same lexicographic order on the character lists
(which is also how Lean's `String.lt` is defined). -/
def laneLE (a b : String × List Task) : Prop :=
  a.1.data < b.1.data ∨ a.1.data = b.1.data

instance : DecidableRel laneLE := fun a b => by
  unfold laneLE; infer_instance

instance : IsTotal (String × List Task) laneLE where
  total a b := by
    unfold laneLE
    rcases lt_trichotomy a.1.data b.1.data with h | h | h
    · exact Or.inl (Or.inl h)
    · exact Or.inl (Or.inr h)
    · exact Or.inr (Or.inl h)

instance : IsTrans (String × List Task) laneLE where
  trans a b c hab hbc := by
    unfold laneLE at *
    rcases hab with h1 | h1 <;> rcases hbc with h2 | h2
    · exact Or.inl (h1.trans h2)
    · exact Or.inl (h2 ▸ h1)
    · exact Or.inl (h1 ▸ h2)
    · exact Or.inr (h1.trans h2)

/-- Drawable scene items assembled by `generate_html` into `svg_items`.
The purely presentational string fields of the source dicts (`id`, `tooltip`,
and the duplicated raw attributes) are omitted; geometry, fill, thread and
row data are kept. -/
inductive SvgItem where
  | threadHeader (x y w h : ℚ) (thread : String)
  | task (x y w h : ℚ) (fill : String) (thread : String)
      (rowLocal rowGlobal : Nat) (t : Task)
deriving DecidableEq, Repr

/-- The vertical position of a scene item. -/
def itemY : SvgItem → ℚ
  | .threadHeader _ y _ _ _ => y
  | .task _ y _ _ _ _ _ _ _ => y

/-- The owning thread of a scene item. -/
def itemThread : SvgItem → String
  | .threadHeader _ _ _ _ th => th
  | .task _ _ _ _ _ th _ _ _ => th

/-- Whether a scene item is a task rectangle. -/
def isTaskItem : SvgItem → Bool
  | .task _ _ _ _ _ _ _ _ _ => true
  | _ => false

/-- Whether a scene item is a lane header. -/
def isHeaderItem : SvgItem → Bool
  | .threadHeader _ _ _ _ _ => true
  | _ => false

/-- Vertical offset formula of `generate_html`
(`y = header_h + (row_index_global + r) * (row_height + row_padding)
+ (len(thread_blocks)-1) * track_spacing`). -/
def laneYQ (g laneIdx : Nat) : ℚ :=
  header_h + (g : ℚ) * (row_height + row_padding) + (laneIdx : ℚ) * track_spacing

/-- The main rendering loop of `generate_html` (`for thread in thread_order:`):
emits one full-width header per lane followed by its task rectangles,
threading the `row_index_global` counter, the number of emitted lane blocks,
and the `y_cursor`.  (The source also computes a variable `y_for_rows`,
which it never uses; it is omitted.) -/
def buildLanes (gs ge : ℚ) : List (String × List Task) → Nat → Nat → ℚ → List SvgItem
  | [], _, _, _ => []
  | (thread, tlist) :: rest, rowG, nBlocks, yCursor =>
    let al := assign_rows_per_thread tlist
    let headerItem := SvgItem.threadHeader 0 yCursor width_px (row_height + row_padding) thread
    let taskItems := al.1.map (fun p =>
      let t := p.1
      let gx := time_to_x gs ge t.start
      let gW := max 2 (time_to_x gs ge t.stop - gx)
      SvgItem.task gx (laneYQ (rowG + p.2) nBlocks) gW row_height
        (resolveFill t) t.thread p.2 (rowG + p.2) t)
    let rowG' := rowG + al.2
    headerItem :: taskItems ++
      buildLanes gs ge rest rowG' (nBlocks + 1) (laneYQ rowG' (nBlocks + 1))

/-- The scene assembled by `generate_html`: group by thread, order lanes
lexicographically, and lay the lanes out from `y_cursor = header_h`. -/
def buildScene (tasks : List Task) : List SvgItem :=
  let r := adjustedRange tasks
  buildLanes r.1 r.2 (List.insertionSort laneLE (groupByThread tasks)) 0 0 header_h

/-- Outcome of one run of a generator: either a diagnostic with no artifact,
or a produced artifact. -/
inductive RunOutcome (α : Type) where
  | noArtifact (diagnostic : String)
  | artifact (out : α)
deriving DecidableEq, Repr

/-- Run-level model of `generate_html(tasks, out_path)`: with no tasks it
prints `"No tasks found."` to stderr and returns without writing; otherwise
it writes the rendered scene. -/
def generate_html_run (tasks : List Task) : RunOutcome (List SvgItem) :=
  if tasks = [] then .noArtifact "No tasks found."
  else .artifact (buildScene tasks)

/-- Task record of `generate_trace_json.py`
(`Task = namedtuple("Task", ["start", "end", "thread", "args", "orig_args",
"overhead_duration_us", "color", "idx"])`). -/
structure JTask where
  start : ℚ
  stop : ℚ
  thread : String
  args : String
  orig_args : List String
  overhead_duration_us : Option ℚ
  color : Option Int
  idx : Nat
deriving DecidableEq, Repr

/-- Per-task dictionary written into `trace.json` by `export_json`
(fields `start`, `end`, `args`, `orig_args`, `overhead_duration_us`, `color`). -/
structure JsonTaskEntry where
  start : ℚ
  stop : ℚ
  args : String
  orig_args : List String
  overhead_duration_us : Option ℚ
  color : Option Int
deriving DecidableEq, Repr

/-- The exported document of `export_json`: `global_start`, `global_end`,
and the thread list in insertion order. -/
structure TraceJson where
  global_start : ℚ
  global_end : ℚ
  threads : List (String × List JsonTaskEntry)
deriving DecidableEq, Repr

/-- Grouping step of `export_json` (`threads[t.thread].append({...})`). -/
def addToJGroup (groups : List (String × List JsonTaskEntry)) (t : JTask) :
    List (String × List JsonTaskEntry) :=
  let entry : JsonTaskEntry :=
    ⟨t.start, t.stop, t.args, t.orig_args, t.overhead_duration_us, t.color⟩
  match groups with
  | [] => [(t.thread, [entry])]
  | (k, l) :: rest =>
    if k = t.thread then (k, l ++ [entry]) :: rest
    else (k, l) :: addToJGroup rest t

/-- Run-level model of `export_json(tasks, out_dir)`: with no tasks it prints
`"No tasks to export."` to stderr and returns without writing; otherwise it
writes the `trace.json` document. -/
def export_json_run (tasks : List JTask) : RunOutcome TraceJson :=
  if tasks = [] then .noArtifact "No tasks to export."
  else
    .artifact
      { global_start := listMin (tasks.map JTask.start)
        global_end := listMax (tasks.map JTask.stop)
        threads := tasks.foldl addToJGroup [] }

/-- Digit value of a character, as Python `int(s, base)` accepts it
(`0`-`9`, then letters up to `z` case-insensitively). -/
def charValCore (c : Char) : Option Nat :=
  if c.isDigit then some (c.toNat - 48)
  else if 'a' ≤ c ∧ c ≤ 'z' then some (c.toNat - 87)
  else if 'A' ≤ c ∧ c ≤ 'Z' then some (c.toNat - 55)
  else none

/-- Digit value of a character in the given base, `none` when invalid. -/
def charVal (base : Nat) (c : Char) : Option Nat :=
  match charValCore c with
  | some v => if v < base then some v else none
  | none => none

/-- Whether a character is a hexadecimal digit (`0-9`, `a-f`, `A-F`). -/
def isHexChar (c : Char) : Bool :=
  (charVal 16 c).isSome

/-- Continuation of a digit run for Python `int(s, base)`: after a first
digit, further digits may be separated by single underscores (the Bool flag
records that the previous character was an underscore, which must be
followed by a digit). -/
def parseRun (base : Nat) : Nat → Bool → List Char → Option Nat
  | acc, afterUnd, [] => if afterUnd then none else some acc
  | acc, afterUnd, c :: cs =>
    if c = '_' then
      if afterUnd then none else parseRun base acc true cs
    else
      match charVal base c with
      | some v => parseRun base (acc * base + v) false cs
      | none => none

/-- A nonempty digit run for Python `int(s, base)`: leading digit required,
underscores only between digits. -/
def parseDigits (base : Nat) : List Char → Option Nat
  | [] => none
  | c :: cs =>
    match charVal base c with
    | some v => parseRun base v false cs
    | none => none

/-- Unsigned part of Python `int(s, base)`: for base 16 an optional `0x`/`0X`
marker (optionally followed by one underscore) precedes the digits. -/
def parseUnsigned (base : Nat) (cs : List Char) : Option Nat :=
  match base, cs with
  | 16, '0' :: 'x' :: rest =>
    (match rest with
     | '_' :: rest2 => parseDigits 16 rest2
     | _ => parseDigits 16 rest)
  | 16, '0' :: 'X' :: rest =>
    (match rest with
     | '_' :: rest2 => parseDigits 16 rest2
     | _ => parseDigits 16 rest)
  | _, l => parseDigits base l

/-- Modelled Python built-in `int(s)` / `int(s, 16)` on an already-stripped
token: optional sign, then digits (with the underscore and `0x` conventions).
Returns `none` exactly when Python raises `ValueError`. -/
def pyInt (base : Nat) (s : String) : Option Int :=
  match s.data with
  | '+' :: cs => (parseUnsigned base cs).map Int.ofNat
  | '-' :: cs => (parseUnsigned base cs).map (fun n => -(n : Int))
  | cs => (parseUnsigned base cs).map Int.ofNat

/-- Color-token resolution of `parse_input` in `trace_to_html.py`
(lines 32-46), applied to the already-stripped fifth column:
empty stays `None`; otherwise try decimal `int(raw)`; on failure, only a
token starting with `#` gets a base-16 attempt on `raw.lstrip("#")`. -/
def parse_input_color (raw : String) : Option Int :=
  match raw.data with
  | [] => none
  | cs =>
    match pyInt 10 raw with
    | some n => some n
    | none =>
      match cs with
      | '#' :: _ =>
        match pyInt 16 (String.mk (cs.dropWhile (· = '#'))) with
        | some n => some n
        | none => none
      | _ => none

/-- `_convert_color(raw)` of `generate_trace_json.py` on an already-stripped
token: empty gives `None`; then decimal; then the `#`-prefixed hex branch;
otherwise a bare base-16 attempt. -/
def _convert_color (raw : String) : Option Int :=
  match raw.data with
  | [] => none
  | cs =>
    match pyInt 10 raw with
    | some n => some n
    | none =>
      match cs with
      | '#' :: _ =>
        match pyInt 16 (String.mk (cs.dropWhile (· = '#'))) with
        | some n => some n
        | none => none
      | _ => pyInt 16 raw

/-- The base-16 value of a list of hexadecimal digits. -/
def hexValData (cs : List Char) : Nat :=
  cs.foldl (fun a c => a * 16 + (charVal 16 c).getD 0) 0

/-- A task is active at instant `x` when `start ≤ x ≤ end` (a zero-width task
is active exactly at its single instant). -/
def activeAt (x : ℚ) (t : Task) : Prop :=
  t.start ≤ x ∧ x ≤ t.stop

instance (x : ℚ) (t : Task) : Decidable (activeAt x t) := by
  unfold activeAt; infer_instance

/-- The number of tasks of the lane simultaneously active at instant `x`
(counted with multiplicity). -/
def countActive (tasks : List Task) (x : ℚ) : Nat :=
  tasks.countP (fun t => decide (activeAt x t))

/-- The maximum, over the instants at which it can be attained (task starts),
of the number of simultaneously active tasks of the lane. -/
def maxSimultaneous (tasks : List Task) : Nat :=
  (tasks.map (fun t => countActive tasks t.start)).foldr max 0

/-- Ghost refinement of `placeIn` that keeps, per row, the last task placed
there rather than only its end time. -/
def placeInG (rowLast : List Task) (t : Task) : Option (List Task × Nat) :=
  match rowLast with
  | [] => none
  | u :: rest =>
    if u.stop ≤ t.start then some (t :: rest, 0)
    else
      match placeInG rest t with
      | some (rest', r) => some (u :: rest', r + 1)
      | none => none

/-- Ghost refinement of `assignStep` over the per-row last-task state. -/
def assignStepG (acc : List (Task × Nat) × List Task) (t : Task) :
    List (Task × Nat) × List Task :=
  match placeInG acc.2 t with
  | some (rows', r) => (acc.1 ++ [(t, r)], rows')
  | none => (acc.1 ++ [(t, acc.2.length)], acc.2 ++ [t])

/-- Two tasks of one lane sharing the sort key `(start, end)` but differing in
label and sequence index. -/
def tiedA : Task := ⟨0, 10, "T1", "a", none, [], 0⟩

/-- Second of the two key-tied tasks. -/
def tiedB : Task := ⟨0, 10, "T1", "b", none, [], 1⟩

/-- A one-task, one-lane input. -/
def demoSingleLane : List Task := [⟨0, 10, "T1", "a", none, [], 0⟩]

/-- A two-lane input with one task per lane. -/
def demoTwoLanes : List Task :=
  [⟨0, 10, "A", "x", none, [], 0⟩, ⟨0, 10, "B", "y", none, [], 1⟩]

/-- An input whose only task has identical start and end. -/
def demoDegenerate : List Task := [⟨5, 5, "T", "x", none, [], 0⟩]

theorem placeIn_eq_firstFitIndex (rows_end : List ℚ) (s e : ℚ) :
    placeIn rows_end s e = (firstFitIndex rows_end s).map (fun r => (rows_end.set r e, r)) := by
  induction rows_end with
  | nil => rfl
  | cons last_end rest ih =>
    by_cases h : last_end ≤ s
    · simp [placeIn, firstFitIndex, h]
    · simp only [placeIn, firstFitIndex, if_neg h, ih]
      cases firstFitIndex rest s <;> simp

/-- C2.  The row packer follows the specified greedy earliest-finish-first
algorithm: the lane's tasks are processed in stable `(start, end)` order;
`placeIn` places a task in the first row (in row-index order) whose cursor is
`≤` the task's start, updating that cursor to the task's end; and on the
single lane a=(0,10), b=(5,15), c=(20,30) the assignment is a→0, b→1, c→0
with two rows. -/
theorem C2_greedy_algorithm :
    (∀ l : List Task, (sortTasks l).Sorted keyLE ∧ (sortTasks l).Perm l) ∧
    (∀ (rows_end : List ℚ) (s e : ℚ),
      placeIn rows_end s e = (firstFitIndex rows_end s).map (fun r => (rows_end.set r e, r))) ∧
    assign_rows_per_thread demoTasks =
      ([(⟨0, 10, "T1", "a", none, [], 0⟩, 0),
        (⟨5, 15, "T1", "b", none, [], 1⟩, 1),
        (⟨20, 30, "T1", "c", none, [], 2⟩, 0)], 2) := by
  refine ⟨fun l => ⟨List.sorted_insertionSort keyLE l, List.perm_insertionSort keyLE l⟩,
    placeIn_eq_firstFitIndex, ?_⟩
  decide

/-- C5.  `time_to_x` is monotone non-decreasing on `[global_start, global_end]`
and maps the endpoints to `left_margin` and `left_margin + drawable_width`
(with `drawable_width = width_px - left_margin - 40`). -/
theorem C5_time_to_x (gs ge t1 t2 : ℚ) (hr : gs < ge)
    (h1 : gs ≤ t1) (h12 : t1 ≤ t2) (h2 : t2 ≤ ge) :
    time_to_x gs ge t1 ≤ time_to_x gs ge t2 ∧
    time_to_x gs ge gs = left_margin ∧
    time_to_x gs ge ge = left_margin + (width_px - left_margin - 40) := by
  have hd : (0 : ℚ) < ge - gs := by linarith
  have hx : ∀ t : ℚ, time_to_x gs ge t =
      left_margin + (t - gs) / (ge - gs) * (width_px - left_margin - 40) :=
    fun _ => rfl
  refine ⟨?_, ?_, ?_⟩
  · rw [hx t1, hx t2]
    have hq : (t1 - gs) / (ge - gs) ≤ (t2 - gs) / (ge - gs) := by
      apply div_le_div_of_nonneg_right ?_ hd.le
      linarith
    have hD : (0 : ℚ) ≤ width_px - left_margin - 40 := by
      norm_num [width_px, left_margin]
    have := mul_le_mul_of_nonneg_right hq hD
    linarith
  · rw [hx gs, sub_self, zero_div, zero_mul, add_zero]
  · rw [hx ge, div_self hd.ne', one_mul]

/-- C5 witness at `gs = 0`, `ge = 10`, `t1 = 2`, `t2 = 5`. -/
theorem C5_time_to_x_witness :
    time_to_x 0 10 2 ≤ time_to_x 0 10 5 ∧
    time_to_x 0 10 0 = left_margin ∧
    time_to_x 0 10 10 = left_margin + (width_px - left_margin - 40) :=
  C5_time_to_x 0 10 2 5 (by norm_num) (by norm_num) (by norm_num) (by norm_num)

theorem foldl_min_all_eq (c : ℚ) :
    ∀ (l : List ℚ) (a : ℚ), (∀ x ∈ l, x = c) → a = c → l.foldl min a = c
  | [], _, _, ha => ha
  | x :: l, a, h, ha => by
    have hx : x = c := h x (List.mem_cons_self _ _)
    have hm : min a x = c := by rw [ha, hx, min_self]
    exact foldl_min_all_eq c l (min a x) (fun y hy => h y (List.mem_cons_of_mem _ hy)) hm

theorem foldl_max_all_eq (c : ℚ) :
    ∀ (l : List ℚ) (a : ℚ), (∀ x ∈ l, x = c) → a = c → l.foldl max a = c
  | [], _, _, ha => ha
  | x :: l, a, h, ha => by
    have hx : x = c := h x (List.mem_cons_self _ _)
    have hm : max a x = c := by rw [ha, hx, max_self]
    exact foldl_max_all_eq c l (max a x) (fun y hy => h y (List.mem_cons_of_mem _ hy)) hm

theorem listMin_all_eq (c : ℚ) (l : List ℚ) (hne : l ≠ []) (h : ∀ x ∈ l, x = c) :
    listMin l = c := by
  match l, hne with
  | a :: l, _ =>
    exact foldl_min_all_eq c l a (fun y hy => h y (List.mem_cons_of_mem _ hy))
      (h a (List.mem_cons_self _ _))

theorem listMax_all_eq (c : ℚ) (l : List ℚ) (hne : l ≠ []) (h : ∀ x ∈ l, x = c) :
    listMax l = c := by
  match l, hne with
  | a :: l, _ =>
    exact foldl_max_all_eq c l a (fun y hy => h y (List.mem_cons_of_mem _ hy))
      (h a (List.mem_cons_self _ _))

/-- C6.  When every valid task shares one identical start and end value, the
global range degenerates to zero width and `generate_html` widens it by the
fixed epsilon 1, so the denominator of `time_to_x` is nonzero. -/
theorem C6_degenerate_range (tasks : List Task) (c : ℚ) (hne : tasks ≠ [])
    (hall : ∀ t ∈ tasks, t.start = c ∧ t.stop = c) :
    adjustedRange tasks = (c, c + 1) ∧ (c + 1) - c ≠ 0 := by
  have hmapne : tasks.map Task.start ≠ [] :=
    fun h => hne (List.map_eq_nil_iff.mp h)
  have hmapne2 : tasks.map Task.stop ≠ [] :=
    fun h => hne (List.map_eq_nil_iff.mp h)
  have hmin : listMin (tasks.map Task.start) = c := by
    apply listMin_all_eq c _ hmapne
    intro x hx
    obtain ⟨t, ht, rfl⟩ := List.mem_map.mp hx
    exact (hall t ht).1
  have hmax : listMax (tasks.map Task.stop) = c := by
    apply listMax_all_eq c _ hmapne2
    intro x hx
    obtain ⟨t, ht, rfl⟩ := List.mem_map.mp hx
    exact (hall t ht).2
  constructor
  · have hdef : adjustedRange tasks =
        (listMin (tasks.map Task.start),
          if listMax (tasks.map Task.stop) = listMin (tasks.map Task.start) then
            listMin (tasks.map Task.start) + 1
          else listMax (tasks.map Task.stop)) := rfl
    rw [hdef, hmin, hmax, if_pos rfl]
  · norm_num

/-- C6 witness on the one-task degenerate input with start = end = 5. -/
theorem C6_degenerate_range_witness :
    adjustedRange demoDegenerate = (5, 5 + 1) ∧ (5 + 1 : ℚ) - 5 ≠ 0 :=
  C6_degenerate_range demoDegenerate 5 (by decide) (by decide)

/-- C7.  Color resolution is a pure deterministic function of the task:
an explicit color is mixed through `color_from_int` (after `& 0xFFFFFFFF`);
otherwise the fallback key is the label when non-empty, else the decimal
rendering of the sequence index, hashed by the fixed 64-bit hash whose low
32 bits feed the same mixing; the result depends on nothing but the key. -/
theorem C7_color_resolution :
    (∀ t : Task, resolveFill t =
      match t.color with
      | some c => color_from_int (c % (2 ^ 32 : Int))
      | none => color_from_string (if t.args = "" then toString t.idx else t.args)) ∧
    (∀ s : String, color_from_string s = color_from_int (Int.ofNat (fnv64 s % 2 ^ 32))) ∧
    (∀ (s1 e1 : ℚ) (th1 : String) (ol1 : List String) (s2 e2 : ℚ) (th2 : String)
        (ol2 : List String) (a : String) (co : Option Int) (i : Nat),
      resolveFill ⟨s1, e1, th1, a, co, ol1, i⟩ = resolveFill ⟨s2, e2, th2, a, co, ol2, i⟩) :=
  ⟨fun _ => rfl, fun _ => rfl, fun _ _ _ _ _ _ _ _ _ _ _ => rfl⟩

/-- C9.  With zero valid task records, both the visual generator and the JSON
exporter terminate with a diagnostic and produce no artifact. -/
theorem C9_empty_input :
    generate_html_run [] = RunOutcome.noArtifact "No tasks found." ∧
    export_json_run ([] : List JTask) = RunOutcome.noArtifact "No tasks to export." :=
  ⟨rfl, rfl⟩

/-- C4 counterexample.  The code sorts only by `(start, end)` (stably), with no
`sequence_index` tie-break: permuting two tasks that share `(start, end)`
swaps their row assignment, so the assignment is not invariant under input
reordering. -/
theorem C4_counterexample :
    ([tiedB, tiedA] : List Task).Perm [tiedA, tiedB] ∧
    (assign_rows_per_thread [tiedA, tiedB]).1 ≠ (assign_rows_per_thread [tiedB, tiedA]).1 ∧
    (tiedA, 0) ∈ (assign_rows_per_thread [tiedA, tiedB]).1 ∧
    (tiedA, 1) ∈ (assign_rows_per_thread [tiedB, tiedA]).1 := by
  decide

/-- C8 counterexample.  On a one-lane, one-task input the lane header and the
lane's row-0 task rectangle are emitted at the same vertical position
(both at `y = header_h = 40`): the header does not lie strictly above the
lane's task rectangles. -/
theorem C8_counterexample :
    isHeaderItem ((buildScene demoSingleLane).get ⟨0, by decide⟩) = true ∧
    isTaskItem ((buildScene demoSingleLane).get ⟨1, by decide⟩) = true ∧
    itemThread ((buildScene demoSingleLane).get ⟨0, by decide⟩) =
      itemThread ((buildScene demoSingleLane).get ⟨1, by decide⟩) ∧
    itemY ((buildScene demoSingleLane).get ⟨0, by decide⟩) =
      itemY ((buildScene demoSingleLane).get ⟨1, by decide⟩) ∧
    ¬ itemY ((buildScene demoSingleLane).get ⟨0, by decide⟩) <
      itemY ((buildScene demoSingleLane).get ⟨1, by decide⟩) := by
  have h0y : itemY ((buildScene demoSingleLane).get ⟨0, by decide⟩) = header_h := rfl
  have h1y : itemY ((buildScene demoSingleLane).get ⟨1, by decide⟩) = laneYQ 0 0 := rfl
  have hy : header_h = laneYQ 0 0 := by
    norm_num [laneYQ, header_h]
  refine ⟨rfl, rfl, rfl, ?_, ?_⟩
  · rw [h0y, h1y, hy]
  · rw [h0y, h1y, ← hy]
    exact lt_irrefl _

theorem charVal_isSome_of_isHexChar {c : Char} (h : isHexChar c = true) :
    ∃ v, charVal 16 c = some v := by
  unfold isHexChar at h
  exact Option.isSome_iff_exists.mp h

theorem parseRun_allHex (cs : List Char) : ∀ acc : Nat,
    (∀ c ∈ cs, isHexChar c = true) →
    parseRun 16 acc false cs =
      some (cs.foldl (fun a c => a * 16 + (charVal 16 c).getD 0) acc) := by
  induction cs with
  | nil => intro acc _; rfl
  | cons c cs ih =>
    intro acc h
    have hc : isHexChar c = true := h c (List.mem_cons_self _ _)
    have hrest : ∀ x ∈ cs, isHexChar x = true :=
      fun x hx => h x (List.mem_cons_of_mem _ hx)
    have hne : ¬ c = '_' := by
      intro he
      rw [he] at hc
      exact absurd hc (by decide)
    obtain ⟨v, hv⟩ := charVal_isSome_of_isHexChar hc
    simp only [parseRun]
    rw [if_neg hne, hv]
    show parseRun 16 (acc * 16 + v) false cs = _
    rw [ih (acc * 16 + v) hrest]
    simp [List.foldl_cons, hv]

theorem parseDigits_allHex (cs : List Char) (hne : cs ≠ [])
    (h : ∀ c ∈ cs, isHexChar c = true) :
    parseDigits 16 cs = some (hexValData cs) := by
  match cs, hne with
  | c :: cs, _ =>
    have hc : isHexChar c = true := h c (List.mem_cons_self _ _)
    have hrest : ∀ x ∈ cs, isHexChar x = true :=
      fun x hx => h x (List.mem_cons_of_mem _ hx)
    obtain ⟨v, hv⟩ := charVal_isSome_of_isHexChar hc
    simp only [parseDigits]
    rw [hv]
    show parseRun 16 v false cs = _
    rw [parseRun_allHex cs v hrest]
    unfold hexValData
    simp [List.foldl_cons, hv]

theorem parseUnsigned_allHex (cs : List Char)
    (h : ∀ c ∈ cs, isHexChar c = true) :
    parseUnsigned 16 cs = parseDigits 16 cs := by
  unfold parseUnsigned
  split
  · exfalso
    exact absurd (h 'x' (List.mem_cons_of_mem _ (List.mem_cons_self _ _))) (by decide)
  · exfalso
    exact absurd (h 'X' (List.mem_cons_of_mem _ (List.mem_cons_self _ _))) (by decide)
  · rfl

theorem pyInt_16_allHex (s : String) (hne : s.data ≠ [])
    (h : ∀ c ∈ s.data, isHexChar c = true) :
    pyInt 16 s = some (Int.ofNat (hexValData s.data)) := by
  unfold pyInt
  split
  · exfalso
    rename_i cs heq
    rw [heq] at h
    exact absurd (h '+' (List.mem_cons_self _ _)) (by decide)
  · exfalso
    rename_i cs heq
    rw [heq] at h
    exact absurd (h '-' (List.mem_cons_self _ _)) (by decide)
  · rw [parseUnsigned_allHex _ h, parseDigits_allHex _ hne h]
    rfl

/-- C10.  On a color token made only of hexadecimal digits, without a leading
`#`, that is not a valid decimal integer, the two front-ends disagree:
`parse_input` of `trace_to_html.py` resolves the color to `None`, while
`_convert_color` of `generate_trace_json.py` resolves it to the base-16
value of the token. -/
theorem C10_bare_hex_disagreement (s : String) (hne : s.data ≠ [])
    (hhex : ∀ c ∈ s.data, isHexChar c = true) (hdec : pyInt 10 s = none) :
    parse_input_color s = none ∧
    _convert_color s = some (Int.ofNat (hexValData s.data)) := by
  obtain ⟨c, cs, hds⟩ : ∃ c cs, s.data = c :: cs := by
    cases hd : s.data with
    | nil => exact absurd hd hne
    | cons c cs => exact ⟨c, cs, rfl⟩
  have hchash : ¬ c = '#' := by
    intro he
    have : isHexChar '#' = true := by
      apply hhex; rw [hds, he]; exact List.mem_cons_self _ _
    exact absurd this (by decide)
  constructor
  · unfold parse_input_color
    rw [hds]
    simp only []
    rw [hdec]
    simp only []
    split
    · rename_i rest heq
      exfalso
      injection heq with h1 _
      exact absurd h1 hchash
    · rfl
  · unfold _convert_color
    rw [hds]
    simp only []
    rw [hdec]
    simp only []
    split
    · rename_i rest heq
      exfalso
      injection heq with h1 _
      exact absurd h1 hchash
    · rw [← hds]
      exact pyInt_16_allHex s hne hhex

/-- C10 witness at the token `"ff8800"` from the claim. -/
theorem C10_bare_hex_witness :
    parse_input_color "ff8800" = none ∧
    _convert_color "ff8800" = some (Int.ofNat (hexValData "ff8800".data)) :=
  C10_bare_hex_disagreement "ff8800" (by decide) (by decide) (by decide)

theorem assignStep_some {S : List ℚ} {t : Task} {rows' : List ℚ} {r : Nat}
    (A : List (Task × Nat)) (h : placeIn S t.start t.stop = some (rows', r)) :
    assignStep (A, S) t = (A ++ [(t, r)], rows') := by
  unfold assignStep
  rw [h]

theorem assignStep_none {S : List ℚ} {t : Task}
    (A : List (Task × Nat)) (h : placeIn S t.start t.stop = none) :
    assignStep (A, S) t = (A ++ [(t, S.length)], S ++ [t.stop]) := by
  unfold assignStep
  rw [h]

theorem assignStepG_some {S : List Task} {t : Task} {rows' : List Task} {r : Nat}
    (A : List (Task × Nat)) (h : placeInG S t = some (rows', r)) :
    assignStepG (A, S) t = (A ++ [(t, r)], rows') := by
  unfold assignStepG
  rw [h]

theorem assignStepG_none {S : List Task} {t : Task}
    (A : List (Task × Nat)) (h : placeInG S t = none) :
    assignStepG (A, S) t = (A ++ [(t, S.length)], S ++ [t]) := by
  unfold assignStepG
  rw [h]

theorem placeInG_map (rowLast : List Task) (t : Task) :
    placeIn (rowLast.map Task.stop) t.start t.stop =
      (placeInG rowLast t).map (fun p => (p.1.map Task.stop, p.2)) := by
  induction rowLast with
  | nil => rfl
  | cons u rest ih =>
    by_cases h : u.stop ≤ t.start
    · simp [placeIn, placeInG, h]
    · simp only [List.map_cons, placeIn, placeInG, if_neg h, ih]
      cases placeInG rest t with
      | none => rfl
      | some p => rfl

theorem foldl_assignStep_ghost (l : List Task) : ∀ (A : List (Task × Nat)) (S : List Task),
    l.foldl assignStep (A, S.map Task.stop) =
      ((l.foldl assignStepG (A, S)).1, (l.foldl assignStepG (A, S)).2.map Task.stop) := by
  induction l with
  | nil => intro A S; rfl
  | cons t l ih =>
    intro A S
    rw [List.foldl_cons, List.foldl_cons]
    have hstep : assignStep (A, S.map Task.stop) t =
        ((assignStepG (A, S) t).1, (assignStepG (A, S) t).2.map Task.stop) := by
      cases hp : placeInG S t with
      | none =>
        have hreal : placeIn (S.map Task.stop) t.start t.stop = none := by
          rw [placeInG_map, hp]; rfl
        rw [assignStep_none A hreal, assignStepG_none A hp]
        simp
      | some p =>
        have hreal : placeIn (S.map Task.stop) t.start t.stop =
            some (p.1.map Task.stop, p.2) := by
          rw [placeInG_map, hp]; rfl
        rw [assignStep_some A hreal, assignStepG_some A (by rw [hp])]
    rw [hstep]
    exact ih (assignStepG (A, S) t).1 (assignStepG (A, S) t).2

theorem placeInG_none_iff (rowLast : List Task) (t : Task) :
    placeInG rowLast t = none ↔ ∀ u ∈ rowLast, ¬ u.stop ≤ t.start := by
  induction rowLast with
  | nil => simp [placeInG]
  | cons u rest ih =>
    by_cases h : u.stop ≤ t.start
    · simp [placeInG, h]
    · simp only [placeInG, if_neg h]
      constructor
      · intro hm
        intro v hv
        rcases List.mem_cons.mp hv with rfl | hv2
        · exact h
        · cases hg : placeInG rest t with
          | none => exact (ih.mp hg) v hv2
          | some p => rw [hg] at hm; exact absurd hm (by simp)
      · intro hall
        have : placeInG rest t = none :=
          ih.mpr (fun v hv => hall v (List.mem_cons_of_mem _ hv))
        rw [this]

theorem placeInG_some_spec (t : Task) : ∀ (rowLast : List Task) (S' : List Task) (r : Nat),
    placeInG rowLast t = some (S', r) →
    r < rowLast.length ∧ S' = rowLast.set r t ∧
      ∃ u, rowLast[r]? = some u ∧ u.stop ≤ t.start := by
  intro rowLast
  induction rowLast with
  | nil => intro S' r h; exact absurd h (by simp [placeInG])
  | cons u rest ih =>
    intro S' r h
    by_cases hc : u.stop ≤ t.start
    · simp only [placeInG, if_pos hc] at h
      have h' := Option.some.inj h
      have h1 : t :: rest = S' := congrArg Prod.fst h'
      have h2 : (0 : Nat) = r := congrArg Prod.snd h'
      subst h1
      subst h2
      exact ⟨Nat.succ_pos _, rfl, u, List.getElem?_cons_zero, hc⟩
    · simp only [placeInG, if_neg hc] at h
      cases hg : placeInG rest t with
      | none => rw [hg] at h; exact absurd h (by simp)
      | some p =>
        rw [hg] at h
        have h' := Option.some.inj h
        have h1 : u :: p.1 = S' := congrArg Prod.fst h'
        have h2 : p.2 + 1 = r := congrArg Prod.snd h'
        subst h1
        subst h2
        obtain ⟨hlt, hset, w, hw, hwle⟩ := ih p.1 p.2 (by rw [hg])
        refine ⟨Nat.succ_lt_succ hlt, by rw [hset]; rfl, w, ?_, hwle⟩
        rw [List.getElem?_cons_succ]
        exact hw

theorem assignG_pairwise :
    ∀ (l : List Task) (A : List (Task × Nat)) (S : List Task),
      l.Pairwise (fun a b => a.start ≤ b.start) →
      (∀ u ∈ S, ∀ v ∈ l, u.start ≤ v.start) →
      (∀ p ∈ A, ∀ v ∈ l, p.1.start ≤ v.start) →
      A.Pairwise (fun a b => a.2 = b.2 → a.1.stop ≤ b.1.start) →
      (∀ p ∈ A, p.2 < S.length) →
      (∀ p ∈ A, ∀ u, S[p.2]? = some u →
        p.1.stop ≤ u.start ∨ p.1.stop = u.stop) →
      ((l.foldl assignStepG (A, S)).1).Pairwise
        (fun a b => a.2 = b.2 → a.1.stop ≤ b.1.start) := by
  intro l
  induction l with
  | nil => intro A S _ _ _ hA _ _; exact hA
  | cons t l ih =>
    intro A S hl hS hAl hA hR hE
    have hhead : ∀ v ∈ l, t.start ≤ v.start := (List.pairwise_cons.mp hl).1
    have htail : l.Pairwise (fun a b => a.start ≤ b.start) := (List.pairwise_cons.mp hl).2
    rw [List.foldl_cons]
    cases hp : placeInG S t with
    | some pr =>
      obtain ⟨hrlt, hset, w, hw, hwle⟩ := placeInG_some_spec t S pr.1 pr.2 (by rw [hp])
      -- the key cross fact: an earlier task in the same row ends before t starts
      have hcross : ∀ p ∈ A, p.2 = pr.2 → p.1.stop ≤ t.start := by
        intro p hpA hpr
        have hwp : S[p.2]? = some w := by rw [hpr]; exact hw
        rcases hE p hpA w hwp with hle | heq
        · have hmem : w ∈ S := List.getElem?_mem hwp
          have : w.start ≤ t.start := hS _ hmem t (List.mem_cons_self _ _)
          exact hle.trans this
        · exact heq.le.trans hwle
      rw [assignStepG_some A (by rw [hp])]
      apply ih
      · exact htail
      · intro u hu v hv
        rw [hset] at hu
        rcases List.mem_or_eq_of_mem_set hu with hu2 | rfl
        · exact hS u hu2 v (List.mem_cons_of_mem _ hv)
        · exact hhead v hv
      · intro p hpA v hv
        rcases List.mem_append.mp hpA with hp2 | hp2
        · exact hAl p hp2 v (List.mem_cons_of_mem _ hv)
        · rw [List.mem_singleton.mp hp2]
          exact hhead v hv
      · rw [List.pairwise_append]
        refine ⟨hA, List.pairwise_singleton _ _, ?_⟩
        intro a ha b hb
        rw [List.mem_singleton.mp hb]
        intro habr
        exact hcross a ha habr
      · intro p hpA
        rcases List.mem_append.mp hpA with hp2 | hp2
        · rw [hset, List.length_set]
          exact hR p hp2
        · rw [List.mem_singleton.mp hp2, hset, List.length_set]
          exact hrlt
      · intro p hpA u hu
        rcases List.mem_append.mp hpA with hp2 | hp2
        · by_cases hpr : p.2 = pr.2
          · left
            have hgu : u = t := by
              rw [hset, hpr, List.getElem?_set_self hrlt] at hu
              exact (Option.some.inj hu).symm
            rw [hgu]
            exact hcross p hp2 hpr
          · have hgu : S[p.2]? = some u := by
              rw [hset, List.getElem?_set_ne (fun he => hpr he.symm)] at hu
              exact hu
            exact hE p hp2 u hgu
        · rw [List.mem_singleton.mp hp2] at hu ⊢
          right
          have hgu : u = t := by
            rw [hset, List.getElem?_set_self hrlt] at hu
            exact (Option.some.inj hu).symm
          rw [hgu]
    | none =>
      have hfree : ∀ u ∈ S, ¬ u.stop ≤ t.start := (placeInG_none_iff S t).mp hp
      rw [assignStepG_none A hp]
      apply ih
      · exact htail
      · intro u hu v hv
        rcases List.mem_append.mp hu with hu2 | hu2
        · exact hS u hu2 v (List.mem_cons_of_mem _ hv)
        · rw [List.mem_singleton.mp hu2]
          exact hhead v hv
      · intro p hpA v hv
        rcases List.mem_append.mp hpA with hp2 | hp2
        · exact hAl p hp2 v (List.mem_cons_of_mem _ hv)
        · rw [List.mem_singleton.mp hp2]
          exact hhead v hv
      · rw [List.pairwise_append]
        refine ⟨hA, List.pairwise_singleton _ _, ?_⟩
        intro a ha b hb
        rw [List.mem_singleton.mp hb]
        intro habr
        exact absurd habr (Nat.ne_of_lt (hR a ha))
      · intro p hpA
        rw [List.length_append, List.length_singleton]
        rcases List.mem_append.mp hpA with hp2 | hp2
        · exact (hR p hp2).trans (Nat.lt_succ_self _)
        · rw [List.mem_singleton.mp hp2]
          exact Nat.lt_succ_self _
      · intro p hpA u hu
        rcases List.mem_append.mp hpA with hp2 | hp2
        · have hrp0 : p.2 < S.length := hR p hp2
          rw [List.getElem?_append_left hrp0] at hu
          exact hE p hp2 u hu
        · rw [List.mem_singleton.mp hp2] at hu ⊢
          right
          rw [List.getElem?_concat_length] at hu
          rw [(Option.some.inj hu).symm]

theorem sortTasks_start_pairwise (tasks : List Task) :
    (sortTasks tasks).Pairwise (fun a b => a.start ≤ b.start) := by
  apply List.Pairwise.imp ?_ (List.sorted_insertionSort keyLE tasks)
  intro a b hab
  rcases hab with h | ⟨h, _⟩
  · exact h.le
  · exact h.le

/-- C1.  In every lane, any two distinct entries of the row assignment that
share a row index have non-overlapping intervals: one task's end is `≤` the
other task's start. -/
theorem C1_no_overlap (tasks : List Task) :
    ((assign_rows_per_thread tasks).1).Pairwise
      (fun a b => a.2 = b.2 → a.1.stop ≤ b.1.start ∨ b.1.stop ≤ a.1.start) := by
  have h1 : (assign_rows_per_thread tasks).1 =
      ((sortTasks tasks).foldl assignStepG ([], [])).1 :=
    congrArg Prod.fst (foldl_assignStep_ghost (sortTasks tasks) [] [])
  rw [h1]
  have key := assignG_pairwise (sortTasks tasks) [] []
    (sortTasks_start_pairwise tasks)
    (by simp) (by simp) List.Pairwise.nil (by simp) (by simp)
  exact key.imp (fun h heq => Or.inl (h heq))

theorem le_foldr_max (l : List Nat) (x : Nat) (hx : x ∈ l) : x ≤ l.foldr max 0 := by
  induction l with
  | nil => cases hx
  | cons a l ih =>
    rw [List.foldr_cons]
    rcases List.mem_cons.mp hx with rfl | h
    · exact le_max_left _ _
    · exact (ih h).trans (le_max_right _ _)

theorem countActive_start_le_max (L : List Task) (t : Task) (ht : t ∈ L) :
    countActive L t.start ≤ maxSimultaneous L :=
  le_foldr_max _ _ (List.mem_map.mpr ⟨t, ht, rfl⟩)

theorem countActive_le_max (L : List Task) (x : ℚ) :
    countActive L x ≤ maxSimultaneous L := by
  by_cases h0 : countActive L x = 0
  · rw [h0]; exact Nat.zero_le _
  · have hpos : 0 < L.countP (fun t => decide (activeAt x t)) :=
      Nat.pos_of_ne_zero h0
    obtain ⟨u, huL, hua⟩ := List.countP_pos_iff.mp hpos
    have hune : L.filter (fun t => decide (activeAt x t)) ≠ [] := by
      intro hemp
      have : u ∈ L.filter (fun t => decide (activeAt x t)) :=
        List.mem_filter.mpr ⟨huL, hua⟩
      rw [hemp] at this
      cases this
    obtain ⟨m, hm⟩ : ∃ m, m ∈ (L.filter (fun t => decide (activeAt x t))).argmax Task.start := by
      cases harg : (L.filter (fun t => decide (activeAt x t))).argmax Task.start with
      | none => exact absurd (List.argmax_eq_none.mp harg) hune
      | some m => exact ⟨m, rfl⟩
    have hmact : m ∈ L.filter (fun t => decide (activeAt x t)) := List.argmax_mem hm
    have hmL : m ∈ L := (List.mem_filter.mp hmact).1
    have hmx : activeAt x m := of_decide_eq_true (List.mem_filter.mp hmact).2
    have hcnt : countActive L x ≤ countActive L m.start := by
      apply List.countP_mono_left
      intro v hv hvx
      have hva : activeAt x v := of_decide_eq_true hvx
      have hvmem : v ∈ L.filter (fun t => decide (activeAt x t)) :=
        List.mem_filter.mpr ⟨hv, hvx⟩
      have hle : v.start ≤ m.start := List.le_of_mem_argmax hvmem hm
      exact decide_eq_true ⟨hle, hmx.1.trans hva.2⟩
    exact hcnt.trans (countActive_start_le_max L m hmL)

theorem mset_set_add (t : Task) : ∀ (S : List Task) (r : Nat) (u : Task),
    S[r]? = some u →
    (↑(S.set r t) : Multiset Task) + {u} = ↑S + {t} := by
  intro S
  induction S with
  | nil => intro r u h; simp at h
  | cons v S ih =>
    intro r u h
    cases r with
    | zero =>
      rw [List.getElem?_cons_zero] at h
      have : v = u := Option.some.inj h
      subst this
      show (↑(t :: S) : Multiset Task) + {v} = ↑(v :: S) + {t}
      rw [← Multiset.cons_coe, ← Multiset.cons_coe]
      simp only [← Multiset.singleton_add]
      rw [add_comm ({t} : Multiset Task) (↑S : Multiset Task)]
      rw [add_comm ({v} : Multiset Task) (↑S : Multiset Task)]
      rw [add_assoc, add_assoc]
      rw [add_comm ({t} : Multiset Task) ({v} : Multiset Task)]
    | succ r =>
      rw [List.getElem?_cons_succ] at h
      show (↑(v :: S.set r t) : Multiset Task) + {u} = ↑(v :: S) + {t}
      rw [← Multiset.cons_coe, ← Multiset.cons_coe]
      rw [Multiset.cons_add, Multiset.cons_add]
      rw [ih r u h]

theorem mset_set_le {S : List Task} {D : Multiset Task} {r : Nat} {u t : Task}
    (hget : S[r]? = some u) (h : (↑S : Multiset Task) ≤ D) :
    (↑(S.set r t) : Multiset Task) ≤ D + {t} :=
  calc (↑(S.set r t) : Multiset Task)
      ≤ ↑(S.set r t) + {u} := Multiset.le_add_right _ _
    _ = ↑S + {t} := mset_set_add t S r u hget
    _ ≤ D + {t} := add_le_add_right h _

theorem assignG_rows_bound (L : List Task) (hL : ∀ u ∈ L, u.start ≤ u.stop) :
    ∀ (l : List Task) (A : List (Task × Nat)) (S : List Task) (D : Multiset Task),
      l.Pairwise (fun a b => a.start ≤ b.start) →
      (∀ u ∈ S, ∀ v ∈ l, u.start ≤ v.start) →
      (∀ v ∈ l, v ∈ L) →
      (↑S : Multiset Task) ≤ D →
      D + ↑l ≤ (↑L : Multiset Task) →
      S.length ≤ maxSimultaneous L →
      (l.foldl assignStepG (A, S)).2.length ≤ maxSimultaneous L := by
  intro l
  induction l with
  | nil => intro A S D _ _ _ _ _ hlen; exact hlen
  | cons t l ih =>
    intro A S D hl hS hmem hsub hDl hlen
    have hhead : ∀ v ∈ l, t.start ≤ v.start := (List.pairwise_cons.mp hl).1
    have htail : l.Pairwise (fun a b => a.start ≤ b.start) := (List.pairwise_cons.mp hl).2
    have hDl' : (D + {t}) + ↑l ≤ (↑L : Multiset Task) := by
      have : (D + {t}) + (↑l : Multiset Task) = D + ↑(t :: l) := by
        rw [← Multiset.cons_coe, ← Multiset.singleton_add]
        rw [add_assoc]
      rw [this]
      exact hDl
    rw [List.foldl_cons]
    cases hp : placeInG S t with
    | some pr =>
      obtain ⟨hrlt, hset, w, hw, hwle⟩ := placeInG_some_spec t S pr.1 pr.2 (by rw [hp])
      rw [assignStepG_some A (by rw [hp])]
      apply ih (A ++ [(t, pr.2)]) pr.1 (D + {t}) htail
      · intro u hu v hv
        rw [hset] at hu
        rcases List.mem_or_eq_of_mem_set hu with hu2 | rfl
        · exact hS u hu2 v (List.mem_cons_of_mem _ hv)
        · exact hhead v hv
      · exact fun v hv => hmem v (List.mem_cons_of_mem _ hv)
      · rw [hset]
        exact mset_set_le hw hsub
      · exact hDl'
      · rw [hset, List.length_set]
        exact hlen
    | none =>
      have hfree : ∀ u ∈ S, ¬ u.stop ≤ t.start := (placeInG_none_iff S t).mp hp
      have htL : t ∈ L := hmem t (List.mem_cons_self _ _)
      -- every task now on a row, and t itself, is active at instant t.start
      have hact : ∀ u ∈ S ++ [t], activeAt t.start u := by
        intro u hu
        rcases List.mem_append.mp hu with hu2 | hu2
        · refine ⟨hS u hu2 t (List.mem_cons_self _ _), ?_⟩
          exact (lt_of_not_le (hfree u hu2)).le
        · rw [List.mem_singleton.mp hu2]
          exact ⟨le_refl _, hL t htL⟩
      have hsub' : (↑(S ++ [t]) : Multiset Task) ≤ D + {t} := by
        have hco : (↑(S ++ [t]) : Multiset Task) = ↑S + {t} := by
          rw [← Multiset.coe_add]
          rfl
        rw [hco]
        exact add_le_add_right hsub _
      have hsubL : (↑(S ++ [t]) : Multiset Task) ≤ ↑L :=
        hsub'.trans ((Multiset.le_add_right _ _).trans hDl')
      have hcount : S.length + 1 ≤ countActive L t.start := by
        have h1 : (S ++ [t]).countP (fun u => decide (activeAt t.start u)) =
            (S ++ [t]).length := by
          rw [List.countP_eq_length]
          intro a ha
          exact decide_eq_true (hact a ha)
        have h2 : (S ++ [t]).countP (fun u => decide (activeAt t.start u)) ≤
            L.countP (fun u => decide (activeAt t.start u)) := by
          have hmono := @Multiset.countP_le_of_le Task (activeAt t.start) _ _ _ hsubL
          simp only [Multiset.coe_countP] at hmono
          exact hmono
        have h3 : (S ++ [t]).length = S.length + 1 := by
          rw [List.length_append, List.length_singleton]
        rw [← h3]
        rw [← h1]
        exact h2
      have hlen' : (S ++ [t]).length ≤ maxSimultaneous L := by
        rw [List.length_append, List.length_singleton]
        exact hcount.trans (countActive_start_le_max L t htL)
      rw [assignStepG_none A hp]
      apply ih (A ++ [(t, S.length)]) (S ++ [t]) (D + {t}) htail
      · intro u hu v hv
        rcases List.mem_append.mp hu with hu2 | hu2
        · exact hS u hu2 v (List.mem_cons_of_mem _ hv)
        · rw [List.mem_singleton.mp hu2]
          exact hhead v hv
      · exact fun v hv => hmem v (List.mem_cons_of_mem _ hv)
      · exact hsub'
      · exact hDl'
      · exact hlen'

/-- C3.  When every task of the lane satisfies `end >= start`, the number of
rows created by `assign_rows_per_thread` never exceeds the maximum number of
the lane's tasks simultaneously active at any single instant (a task being
active at `x` when `start ≤ x ≤ end`; `maxSimultaneous` is that maximum:
no instant has more active tasks, and it is attained at a task start). -/
theorem C3_rows_bound (L : List Task) (hL : ∀ t ∈ L, t.start ≤ t.stop) :
    (∀ x : ℚ, countActive L x ≤ maxSimultaneous L) ∧
    (assign_rows_per_thread L).2 ≤ maxSimultaneous L := by
  refine ⟨countActive_le_max L, ?_⟩
  have h2 : (assign_rows_per_thread L).2 =
      ((sortTasks L).foldl assignStepG ([], [])).2.length := by
    have := congrArg Prod.snd (foldl_assignStep_ghost (sortTasks L) [] [])
    have hlenmap := congrArg List.length this
    rw [List.length_map] at hlenmap
    exact hlenmap
  rw [h2]
  apply assignG_rows_bound L hL (sortTasks L) [] [] 0
  · exact sortTasks_start_pairwise L
  · simp
  · intro v hv
    exact (List.perm_insertionSort keyLE L).mem_iff.mp hv
  · simp
  · rw [zero_add]
    show (↑(List.insertionSort keyLE L) : Multiset Task) ≤ ↑L
    rw [Multiset.coe_eq_coe.mpr (List.perm_insertionSort keyLE L)]
  · simp

/-- C3 witness on the three-task demo lane. -/
theorem C3_rows_bound_witness :
    (assign_rows_per_thread demoTasks).2 ≤ maxSimultaneous demoTasks :=
  (C3_rows_bound demoTasks (by decide)).2

theorem keyLE_keys_eq {a b : Task} (h1 : keyLE a b) (h2 : keyLE b a) :
    (a.start, a.stop) = (b.start, b.stop) := by
  rcases h1 with h | ⟨he, hs⟩ <;> rcases h2 with h' | ⟨he', hs'⟩
  · exact absurd h' (lt_asymm h)
  · exact absurd h (he' ▸ lt_irrefl a.start)
  · exact absurd h' (he ▸ lt_irrefl a.start)
  · rw [Prod.mk.injEq]
    exact ⟨he, le_antisymm hs hs'⟩

/-- C4 amended.  Because the sort key is only `(start, end)` (with a stable
sort and no `sequence_index` tie-break), the row assignment is invariant
under input reordering exactly when the lane's tasks have pairwise-distinct
`(start, end)` pairs; under that condition two permutations of the same
tasks get the identical assignment. -/
theorem C4_amended (L1 L2 : List Task) (hperm : L1.Perm L2)
    (hdist : L1.Pairwise (fun a b => (a.start, a.stop) ≠ (b.start, b.stop))) :
    assign_rows_per_thread L1 = assign_rows_per_thread L2 := by
  have hsym : ∀ {x y : Task}, (x.start, x.stop) ≠ (y.start, y.stop) →
      (y.start, y.stop) ≠ (x.start, x.stop) := fun h he => h he.symm
  have hd1 : (sortTasks L1).Pairwise (fun a b => (a.start, a.stop) ≠ (b.start, b.stop)) :=
    ((List.perm_insertionSort keyLE L1).pairwise_iff hsym).mpr hdist
  have hdist2 : L2.Pairwise (fun a b => (a.start, a.stop) ≠ (b.start, b.stop)) :=
    (hperm.pairwise_iff hsym).mp hdist
  have hd2 : (sortTasks L2).Pairwise (fun a b => (a.start, a.stop) ≠ (b.start, b.stop)) :=
    ((List.perm_insertionSort keyLE L2).pairwise_iff hsym).mpr hdist2
  have hp : (sortTasks L1).Perm (sortTasks L2) :=
    (List.perm_insertionSort keyLE L1).trans
      (hperm.trans (List.perm_insertionSort keyLE L2).symm)
  haveI : IsAntisymm Task (fun a b => keyLE a b ∧ (a.start, a.stop) ≠ (b.start, b.stop)) :=
    ⟨fun a b h1 h2 => absurd (keyLE_keys_eq h1.1 h2.1) h1.2⟩
  have hs1 : (sortTasks L1).Sorted
      (fun a b => keyLE a b ∧ (a.start, a.stop) ≠ (b.start, b.stop)) :=
    (List.sorted_insertionSort keyLE L1).and hd1
  have hs2 : (sortTasks L2).Sorted
      (fun a b => keyLE a b ∧ (a.start, a.stop) ≠ (b.start, b.stop)) :=
    (List.sorted_insertionSort keyLE L2).and hd2
  have hsorteq : sortTasks L1 = sortTasks L2 :=
    List.eq_of_perm_of_sorted hp hs1 hs2
  unfold assign_rows_per_thread
  rw [hsorteq]

/-- C4 amended witness: two permutations of a lane whose tasks have distinct
`(start, end)` keys get the identical row assignment. -/
theorem C4_amended_witness :
    assign_rows_per_thread
        [⟨0, 10, "T1", "a", none, [], 0⟩, ⟨20, 30, "T1", "c", none, [], 2⟩] =
      assign_rows_per_thread
        [⟨20, 30, "T1", "c", none, [], 2⟩, ⟨0, 10, "T1", "a", none, [], 0⟩] :=
  C4_amended _ _ (by decide) (by decide)

theorem laneYQ_le {g g' idx idx' : Nat} (hg : g ≤ g') (hi : idx ≤ idx') :
    laneYQ g idx ≤ laneYQ g' idx' := by
  have h1 : (g : ℚ) ≤ (g' : ℚ) := Nat.cast_le.mpr hg
  have h2 : (idx : ℚ) ≤ (idx' : ℚ) := Nat.cast_le.mpr hi
  simp only [laneYQ, row_height, row_padding, track_spacing, header_h]
  have e1 : (g : ℚ) * (20 + 6) ≤ (g' : ℚ) * (20 + 6) :=
    mul_le_mul_of_nonneg_right h1 (by norm_num)
  have e2 : (idx : ℚ) * 12 ≤ (idx' : ℚ) * 12 :=
    mul_le_mul_of_nonneg_right h2 (by norm_num)
  linarith

theorem laneYQ_strict {g g' idx idx' : Nat} (hg : g < g') (hi : idx < idx') :
    laneYQ g idx + row_height < laneYQ g' idx' := by
  have h1 : (g : ℚ) + 1 ≤ (g' : ℚ) := by exact_mod_cast hg
  have h2 : (idx : ℚ) + 1 ≤ (idx' : ℚ) := by exact_mod_cast hi
  simp only [laneYQ, row_height, row_padding, track_spacing, header_h]
  have e1 : ((g : ℚ) + 1) * (20 + 6) ≤ (g' : ℚ) * (20 + 6) :=
    mul_le_mul_of_nonneg_right h1 (by norm_num)
  have e2 : ((idx : ℚ) + 1) * 12 ≤ (idx' : ℚ) * 12 :=
    mul_le_mul_of_nonneg_right h2 (by norm_num)
  linarith

theorem firstFitIndex_lt (s : ℚ) : ∀ (rows : List ℚ) (r : Nat),
    firstFitIndex rows s = some r → r < rows.length := by
  intro rows
  induction rows with
  | nil => intro r h; exact absurd h (by simp [firstFitIndex])
  | cons e rest ih =>
    intro r h
    by_cases hc : e ≤ s
    · simp only [firstFitIndex, if_pos hc] at h
      rw [← Option.some.inj h]
      exact Nat.succ_pos _
    · simp only [firstFitIndex, if_neg hc] at h
      cases hg : firstFitIndex rest s with
      | none => rw [hg] at h; exact absurd h (by simp)
      | some r' =>
        rw [hg] at h
        simp only [Option.map_some'] at h
        rw [← Option.some.inj h]
        exact Nat.succ_lt_succ (ih r' hg)

theorem placeIn_some_shape (S : List ℚ) (s e : ℚ) (pr : List ℚ × Nat)
    (h : placeIn S s e = some pr) : pr.1.length = S.length ∧ pr.2 < S.length := by
  rw [placeIn_eq_firstFitIndex] at h
  cases hf : firstFitIndex S s with
  | none => rw [hf] at h; exact absurd h (by simp)
  | some r =>
    rw [hf] at h
    simp only [Option.map_some'] at h
    have h1 : S.set r e = pr.1 := congrArg Prod.fst (Option.some.inj h)
    have h2 : r = pr.2 := congrArg Prod.snd (Option.some.inj h)
    constructor
    · rw [← h1, List.length_set]
    · rw [← h2]
      exact firstFitIndex_lt s S r hf

theorem assign_rows_lt (tasks : List Task) :
    ∀ p ∈ (assign_rows_per_thread tasks).1, p.2 < (assign_rows_per_thread tasks).2 := by
  suffices h : ∀ (l : List Task) (A : List (Task × Nat)) (S : List ℚ),
      (∀ p ∈ A, p.2 < S.length) →
      ∀ p ∈ (l.foldl assignStep (A, S)).1, p.2 < (l.foldl assignStep (A, S)).2.length by
    intro p hp
    exact h (sortTasks tasks) [] [] (by simp) p hp
  intro l
  induction l with
  | nil => intro A S hA; exact hA
  | cons t l ih =>
    intro A S hA
    rw [List.foldl_cons]
    cases hp : placeIn S t.start t.stop with
    | some pr =>
      obtain ⟨hlen, hr⟩ := placeIn_some_shape S t.start t.stop pr hp
      rw [assignStep_some A hp]
      apply ih
      intro p hpA
      rw [hlen]
      rcases List.mem_append.mp hpA with h2 | h2
      · exact hA p h2
      · rw [List.mem_singleton.mp h2]
        exact hr
    | none =>
      rw [assignStep_none A hp]
      apply ih
      intro p hpA
      rw [List.length_append, List.length_singleton]
      rcases List.mem_append.mp hpA with h2 | h2
      · exact (hA p h2).trans (Nat.lt_succ_self _)
      · rw [List.mem_singleton.mp h2]
        exact Nat.lt_succ_self _

theorem assign_fst_mem (tasks : List Task) :
    ∀ p ∈ (assign_rows_per_thread tasks).1, p.1 ∈ tasks := by
  suffices h : ∀ (l : List Task) (A : List (Task × Nat)) (S : List ℚ),
      (∀ p ∈ A, p.1 ∈ tasks) → (∀ v ∈ l, v ∈ tasks) →
      ∀ p ∈ (l.foldl assignStep (A, S)).1, p.1 ∈ tasks by
    intro p hp
    exact h (sortTasks tasks) [] [] (by simp)
      (fun v hv => (List.perm_insertionSort keyLE tasks).mem_iff.mp hv) p hp
  intro l
  induction l with
  | nil => intro A S hA _; exact hA
  | cons t l ih =>
    intro A S hA hl
    rw [List.foldl_cons]
    have hnew : ∀ r : Nat, ∀ p ∈ A ++ [(t, r)], p.1 ∈ tasks := by
      intro r p hp
      rcases List.mem_append.mp hp with h2 | h2
      · exact hA p h2
      · rw [List.mem_singleton.mp h2]
        exact hl t (List.mem_cons_self _ _)
    have htl : ∀ v ∈ l, v ∈ tasks := fun v hv => hl v (List.mem_cons_of_mem _ hv)
    cases hp : placeIn S t.start t.stop with
    | some pr =>
      rw [assignStep_some A hp]
      exact ih _ _ (hnew pr.2) htl
    | none =>
      rw [assignStep_none A hp]
      exact ih _ _ (hnew S.length) htl

theorem addToGroup_key : ∀ (groups : List (String × List Task)) (t : Task),
    (∀ p ∈ groups, ∀ u ∈ p.2, u.thread = p.1) →
    ∀ p ∈ addToGroup groups t, ∀ u ∈ p.2, u.thread = p.1 := by
  intro groups
  induction groups with
  | nil =>
    intro t _ p hp u hu
    simp only [addToGroup, List.mem_singleton] at hp
    rw [hp] at hu ⊢
    rw [List.mem_singleton.mp hu]
  | cons g rest ih =>
    obtain ⟨k, lst⟩ := g
    intro t hk p hp u hu
    by_cases hc : k = t.thread
    · simp only [addToGroup, if_pos hc] at hp
      rcases List.mem_cons.mp hp with rfl | hp2
      · rcases List.mem_append.mp hu with hu2 | hu2
        · exact hk (k, lst) (List.mem_cons_self _ _) u hu2
        · rw [List.mem_singleton.mp hu2]
          exact hc.symm
      · exact hk p (List.mem_cons_of_mem _ hp2) u hu
    · simp only [addToGroup, if_neg hc] at hp
      rcases List.mem_cons.mp hp with rfl | hp2
      · exact hk (k, lst) (List.mem_cons_self _ _) u hu
      · exact ih t (fun q hq => hk q (List.mem_cons_of_mem _ hq)) p hp2 u hu

theorem addToGroup_keys : ∀ (groups : List (String × List Task)) (t : Task),
    ∀ p ∈ addToGroup groups t, p.1 ∈ groups.map Prod.fst ∨ p.1 = t.thread := by
  intro groups
  induction groups with
  | nil =>
    intro t p hp
    simp only [addToGroup, List.mem_singleton] at hp
    rw [hp]
    exact Or.inr rfl
  | cons g rest ih =>
    obtain ⟨k, lst⟩ := g
    intro t p hp
    by_cases hc : k = t.thread
    · simp only [addToGroup, if_pos hc] at hp
      rcases List.mem_cons.mp hp with rfl | hp2
      · exact Or.inl (by simp)
      · exact Or.inl (by simp [List.mem_map.mpr ⟨p, hp2, rfl⟩])
    · simp only [addToGroup, if_neg hc] at hp
      rcases List.mem_cons.mp hp with rfl | hp2
      · exact Or.inl (by simp)
      · rcases ih t p hp2 with h2 | h2
        · exact Or.inl (by simp [h2])
        · exact Or.inr h2

theorem addToGroup_nodup : ∀ (groups : List (String × List Task)) (t : Task),
    groups.Pairwise (fun a b => a.1 ≠ b.1) →
    (addToGroup groups t).Pairwise (fun a b => a.1 ≠ b.1) := by
  intro groups
  induction groups with
  | nil => intro t _; exact List.pairwise_singleton _ _
  | cons g rest ih =>
    obtain ⟨k, lst⟩ := g
    intro t hnd
    have hhead : ∀ b ∈ rest, k ≠ b.1 := (List.pairwise_cons.mp hnd).1
    have htail : rest.Pairwise (fun a b => a.1 ≠ b.1) := (List.pairwise_cons.mp hnd).2
    by_cases hc : k = t.thread
    · simp only [addToGroup, if_pos hc]
      exact List.pairwise_cons.mpr ⟨hhead, htail⟩
    · simp only [addToGroup, if_neg hc]
      refine List.pairwise_cons.mpr ⟨?_, ih t htail⟩
      intro b hb
      rcases addToGroup_keys rest t b hb with h2 | h2
      · obtain ⟨q, hq, hq2⟩ := List.mem_map.mp h2
        rw [← hq2]
        exact hhead q hq
      · rw [h2]
        exact hc

theorem groupByThread_key (tasks : List Task) :
    ∀ p ∈ groupByThread tasks, ∀ u ∈ p.2, u.thread = p.1 := by
  suffices h : ∀ (l : List Task) (acc : List (String × List Task)),
      (∀ p ∈ acc, ∀ u ∈ p.2, u.thread = p.1) →
      ∀ p ∈ l.foldl addToGroup acc, ∀ u ∈ p.2, u.thread = p.1 by
    exact h tasks [] (by simp)
  intro l
  induction l with
  | nil => intro acc hacc; exact hacc
  | cons t l ih =>
    intro acc hacc
    rw [List.foldl_cons]
    exact ih _ (addToGroup_key acc t hacc)

theorem groupByThread_nodup (tasks : List Task) :
    (groupByThread tasks).Pairwise (fun a b => a.1 ≠ b.1) := by
  suffices h : ∀ (l : List Task) (acc : List (String × List Task)),
      acc.Pairwise (fun a b => a.1 ≠ b.1) →
      (l.foldl addToGroup acc).Pairwise (fun a b => a.1 ≠ b.1) by
    exact h tasks [] List.Pairwise.nil
  intro l
  induction l with
  | nil => intro acc hacc; exact hacc
  | cons t l ih =>
    intro acc hacc
    rw [List.foldl_cons]
    exact ih _ (addToGroup_nodup acc t hacc)

theorem buildLanes_mem_spec (gs ge : ℚ) :
    ∀ (lanes : List (String × List Task)) (rowG nB : Nat) (yC : ℚ),
      yC = laneYQ rowG nB →
      (∀ p ∈ lanes, ∀ u ∈ p.2, u.thread = p.1) →
      ∀ it ∈ buildLanes gs ge lanes rowG nB yC,
        itemThread it ∈ lanes.map Prod.fst ∧
        ∃ g idx, rowG ≤ g ∧ nB ≤ idx ∧ itemY it = laneYQ g idx := by
  intro lanes
  induction lanes with
  | nil =>
    intro rowG nB yC _ _ it hit
    simp [buildLanes] at hit
  | cons lane rest ih =>
    obtain ⟨k, tlist⟩ := lane
    intro rowG nB yC hy hkey it hit
    simp only [buildLanes, List.mem_cons, List.mem_append, List.mem_map] at hit
    rcases hit with (rfl | ⟨p, hp, rfl⟩) | hit3
    · refine ⟨by simp [itemThread], rowG, nB, le_refl _, le_refl _, ?_⟩
      exact hy
    · constructor
      · have hmem : p.1 ∈ tlist := assign_fst_mem tlist p hp
        have : p.1.thread = k := hkey (k, tlist) (List.mem_cons_self _ _) p.1 hmem
        simp [itemThread, this]
      · exact ⟨rowG + p.2, nB, Nat.le_add_right _ _, le_refl _, rfl⟩
    · have hkey' : ∀ p ∈ rest, ∀ u ∈ p.2, u.thread = p.1 :=
        fun q hq => hkey q (List.mem_cons_of_mem _ hq)
      obtain ⟨hth, g, idx, hg, hidx, hyit⟩ :=
        ih (rowG + (assign_rows_per_thread tlist).2) (nB + 1) _ rfl hkey' it hit3
      refine ⟨by simp [hth], g, idx, ?_, ?_, hyit⟩
      · exact (Nat.le_add_right _ _).trans hg
      · exact (Nat.le_succ _).trans hidx

theorem buildLanes_pairwise (gs ge : ℚ) :
    ∀ (lanes : List (String × List Task)) (rowG nB : Nat) (yC : ℚ),
      yC = laneYQ rowG nB →
      (∀ p ∈ lanes, ∀ u ∈ p.2, u.thread = p.1) →
      lanes.Pairwise (fun a b => a.1 ≠ b.1) →
      (buildLanes gs ge lanes rowG nB yC).Pairwise (fun i1 i2 =>
        (isTaskItem i1 = true → isTaskItem i2 = true → itemThread i1 ≠ itemThread i2 →
          itemY i1 + row_height < itemY i2) ∧
        (isHeaderItem i1 = true → isTaskItem i2 = true → itemThread i1 = itemThread i2 →
          itemY i1 ≤ itemY i2) ∧
        (isTaskItem i1 = true → isHeaderItem i2 = true → itemThread i1 = itemThread i2 →
          False)) := by
  intro lanes
  induction lanes with
  | nil =>
    intro rowG nB yC _ _ _
    simp [buildLanes]
  | cons lane rest ih =>
    obtain ⟨k, tlist⟩ := lane
    intro rowG nB yC hy hkey hnd
    have hkhead : ∀ b ∈ rest, k ≠ b.1 := (List.pairwise_cons.mp hnd).1
    have hndtail : rest.Pairwise (fun a b => a.1 ≠ b.1) := (List.pairwise_cons.mp hnd).2
    have hkey' : ∀ p ∈ rest, ∀ u ∈ p.2, u.thread = p.1 :=
      fun q hq => hkey q (List.mem_cons_of_mem _ hq)
    -- characterization of this lane's task items
    have htaskchar : ∀ p ∈ (assign_rows_per_thread tlist).1,
        p.1.thread = k ∧ p.2 < (assign_rows_per_thread tlist).2 := by
      intro p hp
      exact ⟨hkey (k, tlist) (List.mem_cons_self _ _) p.1 (assign_fst_mem tlist p hp),
        assign_rows_lt tlist p hp⟩
    -- characterization of the tail items
    have htailchar : ∀ it ∈ buildLanes gs ge rest
        (rowG + (assign_rows_per_thread tlist).2) (nB + 1)
        (laneYQ (rowG + (assign_rows_per_thread tlist).2) (nB + 1)),
        itemThread it ∈ rest.map Prod.fst ∧
        ∃ g idx, rowG + (assign_rows_per_thread tlist).2 ≤ g ∧ nB + 1 ≤ idx ∧
          itemY it = laneYQ g idx :=
      fun it hit => buildLanes_mem_spec gs ge rest _ _ _ rfl hkey' it hit
    simp only [buildLanes]
    refine List.Pairwise.cons ?_
      (List.pairwise_append.mpr ⟨?_, ih _ _ _ rfl hkey' hndtail, ?_⟩)
    · -- the lane header against every later item
      intro b hb
      rcases List.mem_append.mp hb with hb2 | hb3
      · obtain ⟨p, hp, rfl⟩ := List.mem_map.mp hb2
        refine ⟨?_, ?_, ?_⟩
        · intro h1
          exact absurd h1 (by simp [isTaskItem])
        · intro _ _ _
          rw [hy]
          show laneYQ rowG nB ≤ laneYQ (rowG + p.2) nB
          exact laneYQ_le (Nat.le_add_right _ _) (le_refl _)
        · intro h1
          exact absurd h1 (by simp [isTaskItem])
      · obtain ⟨_, g, idx, hg, hidx, hyit⟩ := htailchar b hb3
        refine ⟨?_, ?_, ?_⟩
        · intro h1
          exact absurd h1 (by simp [isTaskItem])
        · intro _ _ _
          rw [hy, hyit]
          exact laneYQ_le ((Nat.le_add_right _ _).trans hg) ((Nat.le_succ _).trans hidx)
        · intro h1
          exact absurd h1 (by simp [isTaskItem])
    · -- pairs of task items within this lane share the thread
      apply List.pairwise_of_forall_mem_list
      intro a ha b hb
      obtain ⟨p, hp, rfl⟩ := List.mem_map.mp ha
      obtain ⟨q, hq, rfl⟩ := List.mem_map.mp hb
      refine ⟨?_, ?_, ?_⟩
      · intro _ _ hne
        exfalso
        apply hne
        show p.1.thread = q.1.thread
        rw [(htaskchar p hp).1, (htaskchar q hq).1]
      · intro h1
        exact absurd h1 (by simp [isHeaderItem])
      · intro _ h2
        exact absurd h2 (by simp [isHeaderItem])
    · -- a task item of this lane against every item of later lanes
      intro a ha b hb
      obtain ⟨p, hp, rfl⟩ := List.mem_map.mp ha
      obtain ⟨hth, g, idx, hg, hidx, hyit⟩ := htailchar b hb
      refine ⟨?_, ?_, ?_⟩
      · intro _ _ _
        show laneYQ (rowG + p.2) nB + row_height < itemY b
        rw [hyit]
        apply laneYQ_strict
        · exact Nat.lt_of_lt_of_le (Nat.add_lt_add_left (htaskchar p hp).2 _) hg
        · exact Nat.lt_of_lt_of_le (Nat.lt_succ_self _) hidx
      · intro h1
        exact absurd h1 (by simp [isHeaderItem])
      · intro _ _ heq
        have h1 : itemThread (SvgItem.task (time_to_x gs ge p.1.start)
            (laneYQ (rowG + p.2) nB)
            (max 2 (time_to_x gs ge p.1.stop - time_to_x gs ge p.1.start)) row_height
            (resolveFill p.1) p.1.thread p.2 (rowG + p.2) p.1) = k := by
          simp [itemThread, (htaskchar p hp).1]
        rw [h1] at heq
        obtain ⟨q, hq, hq2⟩ := List.mem_map.mp (heq ▸ hth)
        exact hkhead q hq hq2.symm

theorem scene_pairwise (tasks : List Task) :
    (buildScene tasks).Pairwise (fun i1 i2 =>
      (isTaskItem i1 = true → isTaskItem i2 = true → itemThread i1 ≠ itemThread i2 →
        itemY i1 + row_height < itemY i2) ∧
      (isHeaderItem i1 = true → isTaskItem i2 = true → itemThread i1 = itemThread i2 →
        itemY i1 ≤ itemY i2) ∧
      (isTaskItem i1 = true → isHeaderItem i2 = true → itemThread i1 = itemThread i2 →
        False)) := by
  have hh : header_h = laneYQ 0 0 := by
    simp [laneYQ, header_h]
  have hsym : ∀ {x y : String × List Task}, x.1 ≠ y.1 → y.1 ≠ x.1 :=
    fun h he => h he.symm
  have hkey : ∀ p ∈ List.insertionSort laneLE (groupByThread tasks), ∀ u ∈ p.2,
      u.thread = p.1 := by
    intro p hp
    exact groupByThread_key tasks p
      ((List.perm_insertionSort laneLE (groupByThread tasks)).mem_iff.mp hp)
  have hnd : (List.insertionSort laneLE (groupByThread tasks)).Pairwise
      (fun a b => a.1 ≠ b.1) :=
    ((List.perm_insertionSort laneLE (groupByThread tasks)).pairwise_iff hsym).mpr
      (groupByThread_nodup tasks)
  show (buildLanes (adjustedRange tasks).1 (adjustedRange tasks).2
      (List.insertionSort laneLE (groupByThread tasks)) 0 0 header_h).Pairwise _
  rw [hh]
  exact buildLanes_pairwise _ _ _ 0 0 _ rfl hkey hnd

/-- C8 amended.  With the vertical offset formula of the code
(`header_h + (row_index_global + r) * (row_height + row_padding) +
lane_index * track_spacing`), tasks of different lanes never occupy the same
vertical row band; but a lane header is only at-or-above its lane's task
rectangles (its row-0 tasks share the header's top edge), not strictly
above them. -/
theorem C8_amended (tasks : List Task) :
    (∀ it1 ∈ buildScene tasks, ∀ it2 ∈ buildScene tasks,
      isTaskItem it1 = true → isTaskItem it2 = true →
      itemThread it1 ≠ itemThread it2 →
      itemY it1 + row_height < itemY it2 ∨ itemY it2 + row_height < itemY it1) ∧
    (∀ hd ∈ buildScene tasks, ∀ tk ∈ buildScene tasks,
      isHeaderItem hd = true → isTaskItem tk = true →
      itemThread hd = itemThread tk → itemY hd ≤ itemY tk) := by
  have hpw := scene_pairwise tasks
  have hpw2 := hpw.imp
    (fun {i1 i2} h => (Or.inl h :
      ((isTaskItem i1 = true → isTaskItem i2 = true → itemThread i1 ≠ itemThread i2 →
          itemY i1 + row_height < itemY i2) ∧
        (isHeaderItem i1 = true → isTaskItem i2 = true → itemThread i1 = itemThread i2 →
          itemY i1 ≤ itemY i2) ∧
        (isTaskItem i1 = true → isHeaderItem i2 = true → itemThread i1 = itemThread i2 →
          False)) ∨
      ((isTaskItem i2 = true → isTaskItem i1 = true → itemThread i2 ≠ itemThread i1 →
          itemY i2 + row_height < itemY i1) ∧
        (isHeaderItem i2 = true → isTaskItem i1 = true → itemThread i2 = itemThread i1 →
          itemY i2 ≤ itemY i1) ∧
        (isTaskItem i2 = true → isHeaderItem i1 = true → itemThread i2 = itemThread i1 →
          False))))
  have hsym : Symmetric (fun i1 i2 =>
      ((isTaskItem i1 = true → isTaskItem i2 = true → itemThread i1 ≠ itemThread i2 →
          itemY i1 + row_height < itemY i2) ∧
        (isHeaderItem i1 = true → isTaskItem i2 = true → itemThread i1 = itemThread i2 →
          itemY i1 ≤ itemY i2) ∧
        (isTaskItem i1 = true → isHeaderItem i2 = true → itemThread i1 = itemThread i2 →
          False)) ∨
      ((isTaskItem i2 = true → isTaskItem i1 = true → itemThread i2 ≠ itemThread i1 →
          itemY i2 + row_height < itemY i1) ∧
        (isHeaderItem i2 = true → isTaskItem i1 = true → itemThread i2 = itemThread i1 →
          itemY i2 ≤ itemY i1) ∧
        (isTaskItem i2 = true → isHeaderItem i1 = true → itemThread i2 = itemThread i1 →
          False))) := fun a b h => h.symm
  have hforall := hpw2.forall hsym
  constructor
  · intro it1 h1 it2 h2 ht1 ht2 hne
    have hne12 : it1 ≠ it2 := fun he => hne (he ▸ rfl)
    rcases hforall h1 h2 hne12 with hrel | hrel
    · exact Or.inl (hrel.1 ht1 ht2 hne)
    · exact Or.inr (hrel.1 ht2 ht1 (Ne.symm hne))
  · intro hd hmem tk htkmem hhh htk heq
    have hne : hd ≠ tk := by
      intro he
      rw [he] at hhh
      cases tk <;> simp [isHeaderItem, isTaskItem] at hhh htk
    rcases hforall hmem htkmem hne with hrel | hrel
    · exact hrel.2.1 hhh htk heq
    · exact absurd (hrel.2.2 htk hhh heq.symm) not_false

/-- C8 amended witness on a two-lane input: lane A's task band ends strictly
above lane B's task band, and lane A's header is at or above its task. -/
theorem C8_amended_witness :
    (itemY ((buildScene demoTwoLanes).get ⟨1, by decide⟩) + row_height <
        itemY ((buildScene demoTwoLanes).get ⟨3, by decide⟩) ∨
      itemY ((buildScene demoTwoLanes).get ⟨3, by decide⟩) + row_height <
        itemY ((buildScene demoTwoLanes).get ⟨1, by decide⟩)) ∧
    itemY ((buildScene demoTwoLanes).get ⟨0, by decide⟩) ≤
      itemY ((buildScene demoTwoLanes).get ⟨1, by decide⟩) := by
  constructor
  · exact (C8_amended demoTwoLanes).1 _ (List.get_mem _ _ _) _ (List.get_mem _ _ _)
      rfl rfl (by decide)
  · exact (C8_amended demoTwoLanes).2 _ (List.get_mem _ _ _) _ (List.get_mem _ _ _)
      rfl rfl rfl

end Printer
